import Mathlib

/-!
Verification of the coin-selection library (src/main.rs, src/main2.rs, src/barebones.rs)
against its natural-language specification.

Shallow embedding conventions:
* `u64`/`u32`/`usize` values are modelled as `Nat`; the claims under study do not
  hinge on machine-integer wraparound except where noted, and there the wrap is
  written out explicitly (`% 2 ^ 32`).
* `f32` feerates are modelled as exact rationals `ℚ`.  Rust's `x.ceil() as u64`
  saturates negative values to `0`, which is `Int.toNat ∘ Int.ceil` here.
* `ThreadRng` is modelled as a boolean stream `Nat → Bool` together with a cursor
  index that is threaded through the computation; `gen_bool(0.5)` reads the stream
  at the cursor.  The shuffle performed by `select_coin_srd` is modelled by passing
  the shuffled (index, group) list as an explicit argument.
* Rust's stable `sort_by_key` is modelled by a stable insertion sort (`sortBy`);
  `Iterator::enumerate` is `List.enum`.
* The recursive `bnb` search of the sources iterates a `depth` index into the
  sorted candidate list; here the remaining suffix of that list is passed directly
  (the suffix from `depth` onward), which is the same computation in structural
  form.
-/

set_option maxHeartbeats 1600000
set_option maxRecDepth 40000

/-- An input candidate for coin selection (a UTXO or a group of UTXOs spent together),
mirroring `OutputGroup` of the sources. -/
structure OutputGroup where
  value : Nat
  weight : Nat
  input_count : Nat
  is_segwit : Bool
  creation_sequence : Option Nat
deriving DecidableEq, Repr

instance : Inhabited OutputGroup := ⟨⟨0, 0, 0, false, none⟩⟩

/-- Strategy for the excess value, mirroring `ExcessStrategy`. -/
inductive ExcessStrategy where
  | toFee
  | toRecipient
  | toDrain
deriving DecidableEq, Repr

/-- Options guiding a selection attempt, mirroring `CoinSelectionOpt`. -/
structure CoinSelectionOpt where
  target_value : Nat
  target_feerate : ℚ
  long_term_feerate : Option ℚ
  min_absolute_fee : Nat
  base_weight : Nat
  drain_weight : Nat
  drain_cost : Nat
  cost_per_input : Nat
  cost_per_output : Nat
  min_drain_value : Nat
  excess_strategy : ExcessStrategy
deriving DecidableEq, Repr

/-- The two failure modes, mirroring `SelectionError`. -/
inductive SelectionError where
  | insufficientFunds
  | noSolutionFound
deriving DecidableEq, Repr

/-- Result of a successful selection, mirroring `SelectionOutput`; the `WasteMetric`
newtype around `u64` is flattened into a plain `Nat`. -/
structure SelectionOutput where
  selected_inputs : List Nat
  waste : Nat
deriving DecidableEq, Repr

instance : DecidableEq (Except SelectionError SelectionOutput) := fun x y =>
  match x, y with
  | .ok a, .ok b =>
    if h : a = b then .isTrue (by rw [h]) else .isFalse (fun hc => h (by cases hc; rfl))
  | .error a, .error b =>
    if h : a = b then .isTrue (by rw [h]) else .isFalse (fun hc => h (by cases hc; rfl))
  | .ok _, .error _ => .isFalse (fun hc => Except.noConfusion hc)
  | .error _, .ok _ => .isFalse (fun hc => Except.noConfusion hc)

/-- Replace the target value of an option record, leaving every other field unchanged.
Used to state the monotonic-insufficiency claim. -/
def setTarget (o : CoinSelectionOpt) (t : Nat) : CoinSelectionOpt :=
  ⟨t, o.target_feerate, o.long_term_feerate, o.min_absolute_fee, o.base_weight,
   o.drain_weight, o.drain_cost, o.cost_per_input, o.cost_per_output,
   o.min_drain_value, o.excess_strategy⟩

/-! ### Stable sorting, modelling Rust's `sort_by_key`

`insertStable le a l` inserts `a` after every element `b` of `l` with `le b a = true`
("`b` may stay in front of `a`").  Folding it over a list from the left yields a
stable sort: ties keep their original relative order, as Rust's stable sort does. -/

def insertStable (le : α → α → Bool) (a : α) : List α → List α
  | [] => [a]
  | b :: bs => if le b a then b :: insertStable le a bs else a :: b :: bs

/-- Stable insertion sort; `le b a = true` means `b` may precede `a`. -/
def sortBy (le : α → α → Bool) (l : List α) : List α :=
  l.foldl (fun acc a => insertStable le a acc) []

theorem insertStable_perm (le : α → α → Bool) (a : α) :
    ∀ l : List α, List.Perm (insertStable le a l) (a :: l) := by
  intro l
  induction l with
  | nil => exact List.Perm.refl _
  | cons b bs ih =>
    rw [insertStable]
    split
    · exact (ih.cons b).trans (List.Perm.swap a b bs)
    · exact List.Perm.refl _

theorem sortBy_foldl_perm (le : α → α → Bool) :
    ∀ (l acc : List α),
      List.Perm (l.foldl (fun acc a => insertStable le a acc) acc) (acc ++ l) := by
  intro l
  induction l with
  | nil => intro acc; simp
  | cons a as ih =>
    intro acc
    have h1 : List.Perm (insertStable le a acc ++ as) ((a :: acc) ++ as) :=
      (insertStable_perm le a acc).append_right as
    have h2 : List.Perm ((a :: acc) ++ as) (acc ++ a :: as) := by
      have h3 : List.Perm (acc ++ a :: as) (a :: (acc ++ as)) := List.perm_middle
      simpa using h3.symm
    exact ((ih (insertStable le a acc)).trans h1).trans h2

theorem sortBy_perm (le : α → α → Bool) (l : List α) : List.Perm (sortBy le l) l := by
  simpa [sortBy] using sortBy_foldl_perm le l []

theorem mem_insertStable (le : α → α → Bool) (a x : α) (l : List α) :
    x ∈ insertStable le a l ↔ x = a ∨ x ∈ l := by
  rw [(insertStable_perm le a l).mem_iff]
  exact List.mem_cons

theorem insertStable_pairwise (le : α → α → Bool)
    (htrans : ∀ a b c, le a b = true → le b c = true → le a c = true)
    (htot : ∀ a b, le a b = true ∨ le b a = true) (a : α) :
    ∀ l : List α, l.Pairwise (fun x y => le x y = true) →
      (insertStable le a l).Pairwise (fun x y => le x y = true) := by
  intro l
  induction l with
  | nil => intro _; simp [insertStable]
  | cons b bs ih =>
    intro hp
    rw [List.pairwise_cons] at hp
    rw [insertStable]
    split
    · rename_i hba
      rw [List.pairwise_cons]
      constructor
      · intro y hy
        rcases (mem_insertStable le a y bs).mp hy with h | h
        · exact h ▸ hba
        · exact hp.1 y h
      · exact ih hp.2
    · rename_i hba
      have hab : le a b = true := by
        rcases htot a b with h | h
        · exact h
        · exact absurd h hba
      rw [List.pairwise_cons]
      constructor
      · intro y hy
        rcases List.mem_cons.mp hy with h | h
        · exact h ▸ hab
        · exact htrans a b y hab (hp.1 y h)
      · exact List.pairwise_cons.mpr hp

theorem sortBy_pairwise (le : α → α → Bool)
    (htrans : ∀ a b c, le a b = true → le b c = true → le a c = true)
    (htot : ∀ a b, le a b = true ∨ le b a = true) (l : List α) :
    (sortBy le l).Pairwise (fun x y => le x y = true) := by
  suffices h : ∀ (l acc : List α), acc.Pairwise (fun x y => le x y = true) →
      (l.foldl (fun acc a => insertStable le a acc) acc).Pairwise (fun x y => le x y = true) by
    exact h l [] (by simp)
  intro l
  induction l with
  | nil => intro acc hacc; simpa using hacc
  | cons a as ih =>
    intro acc hacc
    exact ih _ (insertStable_pairwise le htrans htot a acc hacc)

/-! ### Cost model (identical in all three sources) -/

/-- Rust: `(weight as f32 * rate).ceil() as u64`.  The cast of a negative float to
`u64` saturates to `0`, hence `Int.toNat`. -/
def calculate_fee (weight : Nat) (rate : ℚ) : Nat :=
  (Int.ceil ((weight : ℚ) * rate)).toNat

/-- Rust: `output.value.saturating_sub(calculate_fee(output.weight, feerate))`;
`Nat` subtraction is saturating. -/
def effective_value (output : OutputGroup) (feerate : ℚ) : Nat :=
  output.value - calculate_fee output.weight feerate

theorem calculate_fee_zero (rate : ℚ) : calculate_fee 0 rate = 0 := by
  simp [calculate_fee]

/-- Waste metric of main.rs (and, identically, barebones.rs).  The long-term term is
`(estimated_fee as f32 - selected_inputs.len() as f32 * long_term_feerate *
accumulated_weight as f32).ceil() as u64`; the excess subtraction is `u64`
subtraction, modelled by truncated `Nat` subtraction (the underflow-freedom of the
success call sites is claim C6). -/
def calculate_waste (inputs : List OutputGroup) (selected_inputs : List Nat)
    (options : CoinSelectionOpt) (accumulated_value accumulated_weight estimated_fee : Nat) :
    Nat :=
  let waste : Nat :=
    match options.long_term_feerate with
    | some long_term_feerate =>
        (Int.ceil ((estimated_fee : ℚ) -
          (selected_inputs.length : ℚ) * long_term_feerate * (accumulated_weight : ℚ))).toNat
    | none => 0
  if options.excess_strategy ≠ ExcessStrategy.toDrain then
    waste + (accumulated_value - options.target_value - estimated_fee)
  else
    waste + options.drain_cost

/-! ### Accumulation loops of the heuristic selectors (main.rs) -/

/-- The running state of the accumulate-and-stop sweeps: accumulated value,
accumulated weight, selected original indices, and the `estimated_fees` variable. -/
structure AccState where
  accV : Nat
  accW : Nat
  sel : List Nat
  fee : Nat
deriving DecidableEq, Repr

/-- Sort key for FIFO.  Rust sorts by `creation_sequence : Option<u32>` with the
derived order, in which `None < Some(s)` and `Some` is ordered by value; the map
`none ↦ 0, some s ↦ s + 1` embeds that order into `Nat`. -/
def fifoKey (o : OutputGroup) : Nat :=
  match o.creation_sequence with
  | none => 0
  | some s => s + 1

/-- The sorted traversal list built by `select_coin_fifo`
(`sorted_inputs.sort_by_key(|(_, a)| a.creation_sequence)`). -/
def fifo_sorted (inputs : List OutputGroup) : List (Nat × OutputGroup) :=
  sortBy (fun b a => decide (fifoKey b.2 ≤ fifoKey a.2)) inputs.enum

/-- The `for` loop of `select_coin_fifo`: at each step the fee is recomputed from the
current accumulated weight, the break condition is tested, and only then is the
candidate folded in.  On list exhaustion the last computed `estimated_fees` value is
kept (the state's `fee` field). -/
def fifoLoop (options : CoinSelectionOpt) : List (Nat × OutputGroup) → AccState → AccState
  | [], s => s
  | (index, inp) :: rest, s =>
    let fee' := calculate_fee s.accW options.target_feerate
    if options.target_value + max fee' options.min_absolute_fee + options.min_drain_value ≤ s.accV
    then ⟨s.accV, s.accW, s.sel, fee'⟩
    else fifoLoop options rest ⟨s.accV + inp.value, s.accW + inp.weight, s.sel ++ [index], fee'⟩

/-- The loop state reached by `select_coin_fifo` just before its final check. -/
def fifo_run (inputs : List OutputGroup) (options : CoinSelectionOpt) : AccState :=
  fifoLoop options (fifo_sorted inputs) ⟨0, 0, [], 0⟩

/-- `select_coin_fifo` of main.rs. -/
def select_coin_fifo (inputs : List OutputGroup) (options : CoinSelectionOpt) :
    Except SelectionError SelectionOutput :=
  let s := fifo_run inputs options
  if s.accV < options.target_value + max s.fee options.min_absolute_fee + options.min_drain_value
  then .error .insufficientFunds
  else .ok ⟨s.sel, calculate_waste inputs s.sel options s.accV s.accW s.fee⟩

/-- The `for` loop of `select_coin_srd`: the candidate is folded in first, then the
fee is recomputed from the new accumulated weight and the break condition tested. -/
def srdLoop (options : CoinSelectionOpt) : List (Nat × OutputGroup) → AccState → AccState
  | [], s => s
  | (index, inp) :: rest, s =>
    let accV' := s.accV + inp.value
    let accW' := s.accW + inp.weight
    let fee' := calculate_fee accW' options.target_feerate
    if options.target_value + options.min_drain_value + max fee' options.min_absolute_fee ≤ accV'
    then ⟨accV', accW', s.sel ++ [index], fee'⟩
    else srdLoop options rest ⟨accV', accW', s.sel ++ [index], fee'⟩

/-- The loop state reached by `select_coin_srd` just before its final check. -/
def srd_run (options : CoinSelectionOpt) (randomized_inputs : List (Nat × OutputGroup)) :
    AccState :=
  srdLoop options randomized_inputs ⟨0, 0, [], 0⟩

/-- `select_coin_srd` of main.rs.  The uniform shuffle of `inputs.iter().enumerate()`
is passed in as `randomized_inputs`; the source also computes a `necessary_target`
from `base_weight` that is never read afterwards, so it is omitted here. -/
def select_coin_srd (inputs : List OutputGroup) (options : CoinSelectionOpt)
    (randomized_inputs : List (Nat × OutputGroup)) : Except SelectionError SelectionOutput :=
  let s := srd_run options randomized_inputs
  if s.accV < options.target_value + options.min_drain_value + max s.fee options.min_absolute_fee
  then .error .insufficientFunds
  else .ok ⟨s.sel, calculate_waste inputs s.sel options s.accV s.accW s.fee⟩

/-- The two `for` loops of `select_coin_lowestlarger` share this body: fold the
candidate in, recompute the fee, stop once the target plus fee floor is covered. -/
def llLoop (options : CoinSelectionOpt) (target : Nat) :
    List (Nat × OutputGroup) → AccState → AccState
  | [], s => s
  | (index, inp) :: rest, s =>
    let accV' := s.accV + inp.value
    let accW' := s.accW + inp.weight
    let fee' := calculate_fee accW' options.target_feerate
    if target + max fee' options.min_absolute_fee ≤ accV'
    then ⟨accV', accW', s.sel ++ [index], fee'⟩
    else llLoop options target rest ⟨accV', accW', s.sel ++ [index], fee'⟩

/-- The ascending-by-effective-value traversal list of `select_coin_lowestlarger`. -/
def ll_sorted (inputs : List OutputGroup) (options : CoinSelectionOpt) :
    List (Nat × OutputGroup) :=
  sortBy (fun b a => decide (effective_value b.2 options.target_feerate ≤
    effective_value a.2 options.target_feerate)) inputs.enum

/-- `sorted_inputs.partition_point(|(_, input)| input.value <= target + fee(input.weight))`.
On a list partitioned by the predicate (which `ll_sorted` always is: a candidate
failing the predicate has effective value above `target`, one passing it has
effective value at most `target`), `partition_point` returns the number of leading
elements satisfying the predicate. -/
def ll_partition_index (inputs : List OutputGroup) (options : CoinSelectionOpt) : Nat :=
  ((ll_sorted inputs options).takeWhile (fun p =>
    decide (p.2.value ≤ options.target_value + options.min_drain_value +
      calculate_fee p.2.weight options.target_feerate))).length

/-- The loop state reached by `select_coin_lowestlarger` just before its final check:
phase 1 walks the smaller-or-equal group in reverse, phase 2 (only if phase 1 fell
short) continues over the remaining candidates in ascending order. -/
def ll_run (inputs : List OutputGroup) (options : CoinSelectionOpt) : AccState :=
  let target := options.target_value + options.min_drain_value
  let sorted := ll_sorted inputs options
  let index := ll_partition_index inputs options
  let s1 := llLoop options target ((sorted.take index).reverse) ⟨0, 0, [], 0⟩
  if s1.accV < target + max s1.fee options.min_absolute_fee
  then llLoop options target (sorted.drop index) s1
  else s1

/-- `select_coin_lowestlarger` of main.rs. -/
def select_coin_lowestlarger (inputs : List OutputGroup) (options : CoinSelectionOpt) :
    Except SelectionError SelectionOutput :=
  let target := options.target_value + options.min_drain_value
  let s := ll_run inputs options
  if s.accV < target + max s.fee options.min_absolute_fee
  then .error .insufficientFunds
  else .ok ⟨s.sel, calculate_waste inputs s.sel options s.accV s.accW s.fee⟩

/-! ### Branch-and-Bound (main.rs) -/

/-- `target_for_match` as computed at the top of `bnb`:
`target_value + fee(base_weight) + cost_per_output`. -/
def target_for_match (options : CoinSelectionOpt) : Nat :=
  options.target_value + calculate_fee options.base_weight options.target_feerate +
    options.cost_per_output

/-- `match_range = cost_per_input + cost_per_output` as computed in `bnb`. -/
def match_range (options : CoinSelectionOpt) : Nat :=
  options.cost_per_input + options.cost_per_output

/-- The descending-by-value working copy built by every `select_coin_bnb`:
`inputs.iter().enumerate()` sorted by `Reverse(input.value)` (stable). -/
def bnb_sorted (inputs : List OutputGroup) : List (Nat × OutputGroup) :=
  sortBy (fun b a => decide (a.2.value ≤ b.2.value)) inputs.enum

/-- The recursive `bnb` search of main.rs.  `remaining` is the suffix of the sorted
candidate list from the source's `depth` onward; `rng idx` is the `gen_bool(0.5)`
coin flip, and the next cursor position is returned alongside the result.  Both
recursive calls receive `bnp_tries - 1`, exactly as in the source. -/
def bnb (remaining : List (Nat × OutputGroup)) (selected_inputs : List Nat)
    (acc_eff_value : Nat) (bnp_tries : Nat) (options : CoinSelectionOpt)
    (rng : Nat → Bool) (rngIdx : Nat) : Option (List Nat) × Nat :=
  if target_for_match options + match_range options < acc_eff_value then (none, rngIdx)
  else if target_for_match options ≤ acc_eff_value then (some selected_inputs, rngIdx)
  else
    match remaining, bnp_tries with
    | [], _ => (none, rngIdx)
    | _ :: _, 0 => (none, rngIdx)
    | (index, inp) :: rest, t + 1 =>
      if rng rngIdx then
        let r1 := bnb rest (selected_inputs ++ [index])
          (acc_eff_value + effective_value inp options.target_feerate) t options rng (rngIdx + 1)
        match r1.1 with
        | some r => (some r, r1.2)
        | none => bnb rest selected_inputs acc_eff_value t options rng r1.2
      else
        let r1 := bnb rest selected_inputs acc_eff_value t options rng (rngIdx + 1)
        match r1.1 with
        | some r => (some r, r1.2)
        | none =>
          let r2 := bnb rest (selected_inputs ++ [index])
            (acc_eff_value + effective_value inp options.target_feerate) t options rng r1.2
          match r2.1 with
          | some r => (some r, r2.2)
          | none => (none, r2.2)
termination_by structural remaining

/-- Sum of `inputs[i].value` over a list of indices (the fold at the top of every
`select_coin_bnb` success branch). -/
def sumValues (inputs : List OutputGroup) (sel : List Nat) : Nat :=
  (sel.map (fun i => ((inputs[i]?).getD default).value)).sum

/-- Sum of `inputs[i].weight` over a list of indices. -/
def sumWeights (inputs : List OutputGroup) (sel : List Nat) : Nat :=
  (sel.map (fun i => ((inputs[i]?).getD default).weight)).sum

/-- Sum of effective values of `inputs[i]` over a list of indices. -/
def effSum (inputs : List OutputGroup) (rate : ℚ) (sel : List Nat) : Nat :=
  (sel.map (fun i => effective_value ((inputs[i]?).getD default) rate)).sum

/-- `select_coin_bnb` of main.rs.  When the search finds no match the source calls
`select_coin_srd(inputs, options, &mut rand::thread_rng())`; the shuffle drawn by
that fallback is the `srd_randomized` argument.  On a match the accumulated value
and weight are recomputed from the original `inputs` and `estimated_fee = 0` is
passed to `calculate_waste`. -/
def select_coin_bnb (inputs : List OutputGroup) (options : CoinSelectionOpt)
    (rng : Nat → Bool) (rngIdx : Nat) (srd_randomized : List (Nat × OutputGroup)) :
    Except SelectionError SelectionOutput :=
  match (bnb (bnb_sorted inputs) [] 0 1000000 options rng rngIdx).1 with
  | some selected_coin =>
      .ok ⟨selected_coin, calculate_waste inputs selected_coin options
        (sumValues inputs selected_coin) (sumWeights inputs selected_coin) 0⟩
  | none => select_coin_srd inputs options srd_randomized

namespace Main2

/-- Waste metric of main2.rs: the long-term term is
`(accumulated_weight as f32 * (target_feerate - long_term_feerate)).ceil() as u64`,
with the negative-to-`u64` cast saturating at zero. -/
def calculate_waste (inputs : List OutputGroup) (selected_inputs : List Nat)
    (options : CoinSelectionOpt) (accumulated_value accumulated_weight estimated_fee : Nat) :
    Nat :=
  let waste : Nat :=
    match options.long_term_feerate with
    | some long_term_feerate =>
        (Int.ceil ((accumulated_weight : ℚ) *
          (options.target_feerate - long_term_feerate))).toNat
    | none => 0
  if options.excess_strategy ≠ ExcessStrategy.toDrain then
    waste + (accumulated_value - (options.target_value + estimated_fee))
  else
    waste + options.drain_cost

/-- The recursive `bnb` of main2.rs.  It differs from main.rs only in the budget
handed to the second branch explored at a node: `bnp_tries - 2` instead of
`bnp_tries - 1`.  With `bnp_tries = t + 1` that is `t - 1` in `u32` arithmetic,
which wraps when `t = 0`; the wrap is written out as `(t + (2 ^ 32 - 1)) % 2 ^ 32`
(in a debug build the subtraction would panic instead). -/
def bnb (remaining : List (Nat × OutputGroup)) (selected_inputs : List Nat)
    (acc_eff_value : Nat) (bnp_tries : Nat) (options : CoinSelectionOpt)
    (rng : Nat → Bool) (rngIdx : Nat) : Option (List Nat) × Nat :=
  if target_for_match options + match_range options < acc_eff_value then (none, rngIdx)
  else if target_for_match options ≤ acc_eff_value then (some selected_inputs, rngIdx)
  else
    match remaining, bnp_tries with
    | [], _ => (none, rngIdx)
    | _ :: _, 0 => (none, rngIdx)
    | (index, inp) :: rest, t + 1 =>
      if rng rngIdx then
        let r1 := Main2.bnb rest (selected_inputs ++ [index])
          (acc_eff_value + effective_value inp options.target_feerate) t options rng (rngIdx + 1)
        match r1.1 with
        | some r => (some r, r1.2)
        | none =>
          Main2.bnb rest selected_inputs acc_eff_value ((t + (2 ^ 32 - 1)) % 2 ^ 32)
            options rng r1.2
      else
        let r1 := Main2.bnb rest selected_inputs acc_eff_value t options rng (rngIdx + 1)
        match r1.1 with
        | some r => (some r, r1.2)
        | none =>
          let r2 := Main2.bnb rest (selected_inputs ++ [index])
            (acc_eff_value + effective_value inp options.target_feerate)
            ((t + (2 ^ 32 - 1)) % 2 ^ 32) options rng r1.2
          match r2.1 with
          | some r => (some r, r2.2)
          | none => (none, r2.2)
termination_by structural remaining

/-- `select_coin_bnb` of main2.rs: identical setup to main.rs, but on exhaustion it
returns `Err(SelectionError::NoSolutionFound)` instead of falling back to SRD. -/
def select_coin_bnb (inputs : List OutputGroup) (options : CoinSelectionOpt)
    (rng : Nat → Bool) (rngIdx : Nat) : Except SelectionError SelectionOutput :=
  match (Main2.bnb (bnb_sorted inputs) [] 0 1000000 options rng rngIdx).1 with
  | some selected_coin =>
      .ok ⟨selected_coin, Main2.calculate_waste inputs selected_coin options
        (sumValues inputs selected_coin) (sumWeights inputs selected_coin) 0⟩
  | none => .error .noSolutionFound

end Main2

namespace Barebones

/-- The search parameters precomputed by barebones.rs. -/
structure MatchParameters where
  target_for_match : Nat
  match_range : Nat
  target_feerate : ℚ
deriving DecidableEq, Repr

/-- The recursive `bnb` of barebones.rs.  The tries budget is a single mutable `u32`
counter shared by the whole search (`&mut bnb_tries`), modelled by threading the
counter through and returning it; it is decremented once per call after the window
checks, with `u32` wraparound written out (a debug build would panic on the wrap). -/
def bnb (remaining : List (Nat × OutputGroup)) (selected_inputs : List Nat)
    (acc_eff_value : Nat) (bnb_tries : Nat) (rng : Nat → Bool) (rngIdx : Nat)
    (match_parameters : MatchParameters) : Option (List Nat) × Nat × Nat :=
  if match_parameters.target_for_match + match_parameters.match_range < acc_eff_value then
    (none, bnb_tries, rngIdx)
  else if match_parameters.target_for_match ≤ acc_eff_value then
    (some selected_inputs, bnb_tries, rngIdx)
  else
    let tries1 := (bnb_tries + (2 ^ 32 - 1)) % 2 ^ 32
    if tries1 = 0 then (none, tries1, rngIdx)
    else
      match remaining with
      | [] => (none, tries1, rngIdx)
      | (index, inp) :: rest =>
        if rng rngIdx then
          let r1 := Barebones.bnb rest (selected_inputs ++ [index])
            (acc_eff_value + effective_value inp match_parameters.target_feerate)
            tries1 rng (rngIdx + 1) match_parameters
          match r1.1 with
          | some r => (some r, r1.2.1, r1.2.2)
          | none =>
            Barebones.bnb rest selected_inputs acc_eff_value r1.2.1 rng r1.2.2 match_parameters
        else
          let r1 := Barebones.bnb rest selected_inputs acc_eff_value tries1 rng (rngIdx + 1)
            match_parameters
          match r1.1 with
          | some r => (some r, r1.2.1, r1.2.2)
          | none =>
            let r2 := Barebones.bnb rest (selected_inputs ++ [index])
              (acc_eff_value + effective_value inp match_parameters.target_feerate)
              r1.2.1 rng r1.2.2 match_parameters
            match r2.1 with
            | some r => (some r, r2.2.1, r2.2.2)
            | none => (none, r2.2.1, r2.2.2)
termination_by structural remaining

/-- `select_coin_bnb` of barebones.rs: precomputes the `MatchParameters`, runs the
search on the descending-by-value enumeration, and on exhaustion returns
`NoSolutionFound`.  Its `calculate_waste` is character-for-character the one of
main.rs, so the top-level `calculate_waste` is reused. -/
def select_coin_bnb (inputs : List OutputGroup) (options : CoinSelectionOpt)
    (rng : Nat → Bool) (rngIdx : Nat) : Except SelectionError SelectionOutput :=
  let match_parameters : MatchParameters :=
    ⟨options.target_value + calculate_fee options.base_weight options.target_feerate +
       options.cost_per_output,
     options.cost_per_input + options.cost_per_output,
     options.target_feerate⟩
  match (Barebones.bnb (bnb_sorted inputs) [] 0 1000000 rng rngIdx match_parameters).1 with
  | some selected_coin =>
      .ok ⟨selected_coin, calculate_waste inputs selected_coin options
        (sumValues inputs selected_coin) (sumWeights inputs selected_coin) 0⟩
  | none => .error .noSolutionFound

end Barebones

/-- Modelled from the spec: the long-term cost term of the waste metric as the
specification words it, `ceil(accumulated_weight * (target_feerate -
long_term_feerate))` clamped at zero.  Used only to compare the implementations
against the specification's formula (claim C2). -/
def spec_long_term_cost (accumulated_weight : Nat) (target_feerate long_term_feerate : ℚ) :
    Nat :=
  (Int.ceil ((accumulated_weight : ℚ) * (target_feerate - long_term_feerate))).toNat

/-! ### Elementary facts about the sums over selected indices -/

theorem sumValues_append (inputs : List OutputGroup) (s t : List Nat) :
    sumValues inputs (s ++ t) = sumValues inputs s + sumValues inputs t := by
  simp [sumValues]

theorem sumWeights_append (inputs : List OutputGroup) (s t : List Nat) :
    sumWeights inputs (s ++ t) = sumWeights inputs s + sumWeights inputs t := by
  simp [sumWeights]

theorem effSum_append (inputs : List OutputGroup) (rate : ℚ) (s t : List Nat) :
    effSum inputs rate (s ++ t) = effSum inputs rate s + effSum inputs rate t := by
  simp [effSum]

theorem sumValues_single (inputs : List OutputGroup) {i : Nat} {g : OutputGroup}
    (h : inputs[i]? = some g) : sumValues inputs [i] = g.value := by
  simp [sumValues, h]

theorem sumWeights_single (inputs : List OutputGroup) {i : Nat} {g : OutputGroup}
    (h : inputs[i]? = some g) : sumWeights inputs [i] = g.weight := by
  simp [sumWeights, h]

theorem effSum_single (inputs : List OutputGroup) (rate : ℚ) {i : Nat} {g : OutputGroup}
    (h : inputs[i]? = some g) : effSum inputs rate [i] = effective_value g rate := by
  simp [effSum, h]

theorem effSum_le_sumValues (inputs : List OutputGroup) (rate : ℚ) (sel : List Nat) :
    effSum inputs rate sel ≤ sumValues inputs sel := by
  induction sel with
  | nil => simp [effSum, sumValues]
  | cons i rest ih =>
    simp only [effSum, sumValues, List.map_cons, List.sum_cons] at ih ⊢
    exact Nat.add_le_add (Nat.sub_le _ _) ih

/-! ### Facts about lists that are permutations of `inputs.enum` -/

theorem perm_enum_lookup {inputs : List OutputGroup} {L : List (Nat × OutputGroup)}
    (h : List.Perm L inputs.enum) : ∀ p ∈ L, inputs[p.1]? = some p.2 := by
  intro p hp
  exact List.mem_enum_iff_getElem?.mp (h.mem_iff.mp hp)

theorem perm_enum_fst_nodup {inputs : List OutputGroup} {L : List (Nat × OutputGroup)}
    (h : List.Perm L inputs.enum) : (L.map Prod.fst).Nodup := by
  have h2 := h.map Prod.fst
  rw [h2.nodup_iff, List.enum_map_fst]
  exact List.nodup_range _

theorem lookup_lt {inputs : List OutputGroup} {i : Nat} {g : OutputGroup}
    (h : inputs[i]? = some g) : i < inputs.length := by
  rcases List.getElem?_eq_some_iff.mp h with ⟨hlt, _⟩
  exact hlt

theorem fifo_sorted_perm (inputs : List OutputGroup) :
    List.Perm (fifo_sorted inputs) inputs.enum :=
  sortBy_perm _ _

theorem ll_sorted_perm (inputs : List OutputGroup) (options : CoinSelectionOpt) :
    List.Perm (ll_sorted inputs options) inputs.enum :=
  sortBy_perm _ _

theorem bnb_sorted_perm (inputs : List OutputGroup) :
    List.Perm (bnb_sorted inputs) inputs.enum :=
  sortBy_perm _ _

/-! ### Lemmas about the FIFO accumulation loop -/

theorem fifoLoop_sel_extend (options : CoinSelectionOpt) :
    ∀ (rem : List (Nat × OutputGroup)) (s : AccState),
      ∃ k, (fifoLoop options rem s).sel = s.sel ++ (rem.take k).map Prod.fst := by
  intro rem
  induction rem with
  | nil => intro s; exact ⟨0, by simp [fifoLoop]⟩
  | cons p rest ih =>
    intro s
    obtain ⟨index, inp⟩ := p
    simp only [fifoLoop]
    split
    · exact ⟨0, by simp⟩
    · obtain ⟨k, hk⟩ := ih ⟨s.accV + inp.value, s.accW + inp.weight, s.sel ++ [index],
        calculate_fee s.accW options.target_feerate⟩
      refine ⟨k + 1, ?_⟩
      rw [hk]
      simp

theorem fifoLoop_sums {inputs : List OutputGroup} (options : CoinSelectionOpt) :
    ∀ (rem : List (Nat × OutputGroup)) (s : AccState),
      (∀ p ∈ rem, inputs[p.1]? = some p.2) →
      s.accV = sumValues inputs s.sel → s.accW = sumWeights inputs s.sel →
      (fifoLoop options rem s).accV = sumValues inputs (fifoLoop options rem s).sel ∧
      (fifoLoop options rem s).accW = sumWeights inputs (fifoLoop options rem s).sel := by
  intro rem
  induction rem with
  | nil => intro s _ hv hw; exact ⟨hv, hw⟩
  | cons p rest ih =>
    intro s hrem hv hw
    obtain ⟨index, inp⟩ := p
    have hlook : inputs[index]? = some inp := hrem (index, inp) (List.mem_cons_self _ _)
    simp only [fifoLoop]
    split
    · exact ⟨hv, hw⟩
    · refine ih _ (fun q hq => hrem q (List.mem_cons_of_mem _ hq)) ?_ ?_
      · simpa [sumValues_append, sumValues_single inputs hlook] using hv
      · simpa [sumWeights_append, sumWeights_single inputs hlook] using hw

theorem fifoLoop_exhaust_or_fee (options : CoinSelectionOpt) :
    ∀ (rem : List (Nat × OutputGroup)) (s : AccState),
      (fifoLoop options rem s).sel = s.sel ++ rem.map Prod.fst ∨
      (fifoLoop options rem s).fee =
        calculate_fee (fifoLoop options rem s).accW options.target_feerate := by
  intro rem
  induction rem with
  | nil => intro s; left; simp [fifoLoop]
  | cons p rest ih =>
    intro s
    obtain ⟨index, inp⟩ := p
    simp only [fifoLoop]
    split
    · right; rfl
    · rcases ih ⟨s.accV + inp.value, s.accW + inp.weight, s.sel ++ [index],
        calculate_fee s.accW options.target_feerate⟩ with h | h
      · left; rw [h]; simp
      · right; exact h

theorem fifoLoop_mono (options : CoinSelectionOpt) (T2 : Nat)
    (hT : options.target_value ≤ T2) :
    ∀ (rem : List (Nat × OutputGroup)) (s : AccState),
      (fifoLoop options rem s).accV < options.target_value +
        max (fifoLoop options rem s).fee options.min_absolute_fee + options.min_drain_value →
      (fifoLoop (setTarget options T2) rem s).accV < T2 +
        max (fifoLoop (setTarget options T2) rem s).fee options.min_absolute_fee +
        options.min_drain_value := by
  intro rem
  induction rem with
  | nil =>
    intro s hfail
    simp only [fifoLoop] at hfail ⊢
    omega
  | cons p rest ih =>
    intro s hfail
    obtain ⟨index, inp⟩ := p
    simp only [fifoLoop, setTarget] at hfail ⊢
    by_cases hbreak : options.target_value +
        max (calculate_fee s.accW options.target_feerate) options.min_absolute_fee +
        options.min_drain_value ≤ s.accV
    · rw [if_pos hbreak] at hfail
      simp only at hfail
      omega
    · rw [if_neg hbreak] at hfail
      have hbreak2 : ¬ (T2 + max (calculate_fee s.accW options.target_feerate)
          options.min_absolute_fee + options.min_drain_value ≤ s.accV) := by omega
      rw [if_neg hbreak2]
      have := ih ⟨s.accV + inp.value, s.accW + inp.weight, s.sel ++ [index],
        calculate_fee s.accW options.target_feerate⟩ hfail
      simpa [setTarget] using this

/-! ### Lemmas about the SRD accumulation loop -/

theorem srdLoop_sel_extend (options : CoinSelectionOpt) :
    ∀ (rem : List (Nat × OutputGroup)) (s : AccState),
      ∃ k, (srdLoop options rem s).sel = s.sel ++ (rem.take k).map Prod.fst := by
  intro rem
  induction rem with
  | nil => intro s; exact ⟨0, by simp [srdLoop]⟩
  | cons p rest ih =>
    intro s
    obtain ⟨index, inp⟩ := p
    simp only [srdLoop]
    split
    · exact ⟨1, by simp⟩
    · obtain ⟨k, hk⟩ := ih ⟨s.accV + inp.value, s.accW + inp.weight, s.sel ++ [index],
        calculate_fee (s.accW + inp.weight) options.target_feerate⟩
      refine ⟨k + 1, ?_⟩
      rw [hk]
      simp

theorem srdLoop_sums {inputs : List OutputGroup} (options : CoinSelectionOpt) :
    ∀ (rem : List (Nat × OutputGroup)) (s : AccState),
      (∀ p ∈ rem, inputs[p.1]? = some p.2) →
      s.accV = sumValues inputs s.sel → s.accW = sumWeights inputs s.sel →
      (srdLoop options rem s).accV = sumValues inputs (srdLoop options rem s).sel ∧
      (srdLoop options rem s).accW = sumWeights inputs (srdLoop options rem s).sel := by
  intro rem
  induction rem with
  | nil => intro s _ hv hw; exact ⟨hv, hw⟩
  | cons p rest ih =>
    intro s hrem hv hw
    obtain ⟨index, inp⟩ := p
    have hlook : inputs[index]? = some inp := hrem (index, inp) (List.mem_cons_self _ _)
    have hv' : s.accV + inp.value = sumValues inputs (s.sel ++ [index]) := by
      simpa [sumValues_append, sumValues_single inputs hlook] using hv
    have hw' : s.accW + inp.weight = sumWeights inputs (s.sel ++ [index]) := by
      simpa [sumWeights_append, sumWeights_single inputs hlook] using hw
    simp only [srdLoop]
    split
    · exact ⟨hv', hw'⟩
    · exact ih _ (fun q hq => hrem q (List.mem_cons_of_mem _ hq)) hv' hw'

theorem srdLoop_fee (options : CoinSelectionOpt) :
    ∀ (rem : List (Nat × OutputGroup)) (s : AccState),
      s.fee = calculate_fee s.accW options.target_feerate →
      (srdLoop options rem s).fee =
        calculate_fee (srdLoop options rem s).accW options.target_feerate := by
  intro rem
  induction rem with
  | nil => intro s h; exact h
  | cons p rest ih =>
    intro s h
    obtain ⟨index, inp⟩ := p
    simp only [srdLoop]
    split
    · rfl
    · exact ih _ rfl

theorem srdLoop_mono (options : CoinSelectionOpt) (T2 : Nat)
    (hT : options.target_value ≤ T2) :
    ∀ (rem : List (Nat × OutputGroup)) (s : AccState),
      (srdLoop options rem s).accV < options.target_value + options.min_drain_value +
        max (srdLoop options rem s).fee options.min_absolute_fee →
      (srdLoop (setTarget options T2) rem s).accV < T2 + options.min_drain_value +
        max (srdLoop (setTarget options T2) rem s).fee options.min_absolute_fee := by
  intro rem
  induction rem with
  | nil =>
    intro s hfail
    simp only [srdLoop] at hfail ⊢
    omega
  | cons p rest ih =>
    intro s hfail
    obtain ⟨index, inp⟩ := p
    simp only [srdLoop, setTarget] at hfail ⊢
    by_cases hbreak : options.target_value + options.min_drain_value +
        max (calculate_fee (s.accW + inp.weight) options.target_feerate)
          options.min_absolute_fee ≤ s.accV + inp.value
    · rw [if_pos hbreak] at hfail
      simp only at hfail
      omega
    · rw [if_neg hbreak] at hfail
      have hbreak2 : ¬ (T2 + options.min_drain_value +
          max (calculate_fee (s.accW + inp.weight) options.target_feerate)
            options.min_absolute_fee ≤ s.accV + inp.value) := by omega
      rw [if_neg hbreak2]
      have := ih ⟨s.accV + inp.value, s.accW + inp.weight, s.sel ++ [index],
        calculate_fee (s.accW + inp.weight) options.target_feerate⟩ hfail
      simpa [setTarget] using this

/-! ### Lemmas about the Lowest-Larger accumulation loop -/

theorem llLoop_sel_extend (options : CoinSelectionOpt) (target : Nat) :
    ∀ (rem : List (Nat × OutputGroup)) (s : AccState),
      ∃ k, (llLoop options target rem s).sel = s.sel ++ (rem.take k).map Prod.fst := by
  intro rem
  induction rem with
  | nil => intro s; exact ⟨0, by simp [llLoop]⟩
  | cons p rest ih =>
    intro s
    obtain ⟨index, inp⟩ := p
    simp only [llLoop]
    split
    · exact ⟨1, by simp⟩
    · obtain ⟨k, hk⟩ := ih ⟨s.accV + inp.value, s.accW + inp.weight, s.sel ++ [index],
        calculate_fee (s.accW + inp.weight) options.target_feerate⟩
      refine ⟨k + 1, ?_⟩
      rw [hk]
      simp

theorem llLoop_sums {inputs : List OutputGroup} (options : CoinSelectionOpt) (target : Nat) :
    ∀ (rem : List (Nat × OutputGroup)) (s : AccState),
      (∀ p ∈ rem, inputs[p.1]? = some p.2) →
      s.accV = sumValues inputs s.sel → s.accW = sumWeights inputs s.sel →
      (llLoop options target rem s).accV = sumValues inputs (llLoop options target rem s).sel ∧
      (llLoop options target rem s).accW = sumWeights inputs (llLoop options target rem s).sel := by
  intro rem
  induction rem with
  | nil => intro s _ hv hw; exact ⟨hv, hw⟩
  | cons p rest ih =>
    intro s hrem hv hw
    obtain ⟨index, inp⟩ := p
    have hlook : inputs[index]? = some inp := hrem (index, inp) (List.mem_cons_self _ _)
    have hv' : s.accV + inp.value = sumValues inputs (s.sel ++ [index]) := by
      simpa [sumValues_append, sumValues_single inputs hlook] using hv
    have hw' : s.accW + inp.weight = sumWeights inputs (s.sel ++ [index]) := by
      simpa [sumWeights_append, sumWeights_single inputs hlook] using hw
    simp only [llLoop]
    split
    · exact ⟨hv', hw'⟩
    · exact ih _ (fun q hq => hrem q (List.mem_cons_of_mem _ hq)) hv' hw'

theorem llLoop_fee (options : CoinSelectionOpt) (target : Nat) :
    ∀ (rem : List (Nat × OutputGroup)) (s : AccState),
      s.fee = calculate_fee s.accW options.target_feerate →
      (llLoop options target rem s).fee =
        calculate_fee (llLoop options target rem s).accW options.target_feerate := by
  intro rem
  induction rem with
  | nil => intro s h; exact h
  | cons p rest ih =>
    intro s h
    obtain ⟨index, inp⟩ := p
    simp only [llLoop]
    split
    · rfl
    · exact ih _ rfl

/-! ### The invariant of the Branch-and-Bound search

Any match returned by `bnb` is the selection stack of the node at which the window
test succeeded: its indices are distinct original indices, and the accumulated
effective value of that stack lies inside the acceptance window. -/

theorem bnb_some_spec (inputs : List OutputGroup) (options : CoinSelectionOpt)
    (rng : Nat → Bool) :
    ∀ (remaining : List (Nat × OutputGroup)) (sel : List Nat) (acc tries idx : Nat)
      (out : List Nat) (idx2 : Nat),
      acc = effSum inputs options.target_feerate sel →
      (∀ i ∈ sel, i < inputs.length) →
      (sel ++ remaining.map Prod.fst).Nodup →
      (∀ p ∈ remaining, inputs[p.1]? = some p.2) →
      bnb remaining sel acc tries options rng idx = (some out, idx2) →
      out.Nodup ∧ (∀ i ∈ out, i < inputs.length) ∧
        target_for_match options ≤ effSum inputs options.target_feerate out ∧
        effSum inputs options.target_feerate out ≤
          target_for_match options + match_range options := by
  intro remaining
  induction remaining with
  | nil =>
    intro sel acc tries idx out idx2 hacc hbound hnodup _ hb
    rw [bnb.eq_def] at hb
    split at hb
    · simp at hb
    split at hb
    · rename_i hover hmatch
      simp only [Prod.mk.injEq, Option.some.injEq] at hb
      obtain ⟨hselout, -⟩ := hb
      subst hselout
      subst hacc
      refine ⟨by simpa using hnodup, hbound, hmatch, by omega⟩
    · simp at hb
  | cons p rest ih =>
    intro sel acc tries idx out idx2 hacc hbound hnodup hrem hb
    obtain ⟨index, inp⟩ := p
    simp only [List.map_cons] at hnodup
    have hlook : inputs[index]? = some inp := hrem (index, inp) (List.mem_cons_self _ _)
    have hrem2 : ∀ q ∈ rest, inputs[q.1]? = some q.2 :=
      fun q hq => hrem q (List.mem_cons_of_mem _ hq)
    have hacc2 : acc + effective_value inp options.target_feerate =
        effSum inputs options.target_feerate (sel ++ [index]) := by
      rw [effSum_append, effSum_single inputs _ hlook, hacc]
    have hbound2 : ∀ i ∈ sel ++ [index], i < inputs.length := by
      intro i hi
      rcases List.mem_append.mp hi with h | h
      · exact hbound i h
      · have h2 := List.mem_singleton.mp h
        subst h2
        exact lookup_lt hlook
    have hnodup_inc : ((sel ++ [index]) ++ rest.map Prod.fst).Nodup := by
      simpa using hnodup
    have hnodup_exc : (sel ++ rest.map Prod.fst).Nodup :=
      List.Nodup.sublist
        (List.Sublist.append_left (List.sublist_cons_self _ _) sel) hnodup
    cases tries with
    | zero =>
      rw [bnb.eq_def] at hb
      split at hb
      · simp at hb
      split at hb
      · rename_i hover hmatch
        simp only [Prod.mk.injEq, Option.some.injEq] at hb
        obtain ⟨hselout, -⟩ := hb
        subst hselout
        subst hacc
        exact ⟨List.Nodup.sublist (List.sublist_append_left _ _) hnodup,
          hbound, hmatch, by omega⟩
      · simp at hb
    | succ t =>
      rw [bnb.eq_def] at hb
      split at hb
      · simp at hb
      split at hb
      · rename_i hover hmatch
        simp only [Prod.mk.injEq, Option.some.injEq] at hb
        obtain ⟨hselout, -⟩ := hb
        subst hselout
        subst hacc
        exact ⟨List.Nodup.sublist (List.sublist_append_left _ _) hnodup,
          hbound, hmatch, by omega⟩
      · simp only at hb
        split at hb
        · -- include-first branch
          rcases hr1 : bnb rest (sel ++ [index])
              (acc + effective_value inp options.target_feerate) t options rng (idx + 1)
            with ⟨o1, i1⟩
          rw [hr1] at hb
          cases o1 with
          | some r =>
            simp only [Prod.mk.injEq, Option.some.injEq] at hb
            obtain ⟨hro, -⟩ := hb
            subst hro
            exact ih (sel ++ [index]) (acc + effective_value inp options.target_feerate)
              t (idx + 1) r i1 hacc2 hbound2 hnodup_inc hrem2 hr1
          | none =>
            exact ih sel acc t i1 out idx2 hacc hbound hnodup_exc hrem2 hb
        · -- exclude-first branch
          rcases hr1 : bnb rest sel acc t options rng (idx + 1) with ⟨o1, i1⟩
          rw [hr1] at hb
          cases o1 with
          | some r =>
            simp only [Prod.mk.injEq, Option.some.injEq] at hb
            obtain ⟨hro, -⟩ := hb
            subst hro
            exact ih sel acc t (idx + 1) r i1 hacc hbound hnodup_exc hrem2 hr1
          | none =>
            rcases hr2 : bnb rest (sel ++ [index])
                (acc + effective_value inp options.target_feerate) t options rng i1
              with ⟨o2, i2⟩
            rw [hr2] at hb
            cases o2 with
            | some r =>
              simp only [Prod.mk.injEq, Option.some.injEq] at hb
              obtain ⟨hro, -⟩ := hb
              subst hro
              exact ih (sel ++ [index]) (acc + effective_value inp options.target_feerate)
                t i1 r i2 hacc2 hbound2 hnodup_inc hrem2 hr2
            | none => simp at hb


theorem bnbBB_some_spec (inputs : List OutputGroup) (mp : Barebones.MatchParameters)
    (rng : Nat → Bool) :
    ∀ (remaining : List (Nat × OutputGroup)) (sel : List Nat) (acc tries idx : Nat)
      (out : List Nat) (t2 idx2 : Nat),
      acc = effSum inputs mp.target_feerate sel →
      (∀ i ∈ sel, i < inputs.length) →
      (sel ++ remaining.map Prod.fst).Nodup →
      (∀ p ∈ remaining, inputs[p.1]? = some p.2) →
      Barebones.bnb remaining sel acc tries rng idx mp = (some out, t2, idx2) →
      out.Nodup ∧ (∀ i ∈ out, i < inputs.length) ∧
        mp.target_for_match ≤ effSum inputs mp.target_feerate out ∧
        effSum inputs mp.target_feerate out ≤ mp.target_for_match + mp.match_range := by
  intro remaining
  induction remaining with
  | nil =>
    intro sel acc tries idx out t2 idx2 hacc hbound hnodup _ hb
    rw [Barebones.bnb.eq_def] at hb
    split at hb
    · simp at hb
    split at hb
    · rename_i hover hmatch
      simp only [Prod.mk.injEq, Option.some.injEq] at hb
      obtain ⟨hselout, -⟩ := hb
      subst hselout
      subst hacc
      refine ⟨by simpa using hnodup, hbound, hmatch, by omega⟩
    · simp only at hb
      split at hb
      · simp at hb
      · simp at hb
  | cons p rest ih =>
    intro sel acc tries idx out t2 idx2 hacc hbound hnodup hrem hb
    obtain ⟨index, inp⟩ := p
    simp only [List.map_cons] at hnodup
    have hlook : inputs[index]? = some inp := hrem (index, inp) (List.mem_cons_self _ _)
    have hrem2 : ∀ q ∈ rest, inputs[q.1]? = some q.2 :=
      fun q hq => hrem q (List.mem_cons_of_mem _ hq)
    have hacc2 : acc + effective_value inp mp.target_feerate =
        effSum inputs mp.target_feerate (sel ++ [index]) := by
      rw [effSum_append, effSum_single inputs _ hlook, hacc]
    have hbound2 : ∀ i ∈ sel ++ [index], i < inputs.length := by
      intro i hi
      rcases List.mem_append.mp hi with h | h
      · exact hbound i h
      · have h2 := List.mem_singleton.mp h
        subst h2
        exact lookup_lt hlook
    have hnodup_inc : ((sel ++ [index]) ++ rest.map Prod.fst).Nodup := by
      simpa using hnodup
    have hnodup_exc : (sel ++ rest.map Prod.fst).Nodup :=
      List.Nodup.sublist
        (List.Sublist.append_left (List.sublist_cons_self _ _) sel) hnodup
    rw [Barebones.bnb.eq_def] at hb
    split at hb
    · simp at hb
    split at hb
    · rename_i hover hmatch
      simp only [Prod.mk.injEq, Option.some.injEq] at hb
      obtain ⟨hselout, -⟩ := hb
      subst hselout
      subst hacc
      exact ⟨List.Nodup.sublist (List.sublist_append_left _ _) hnodup,
        hbound, hmatch, by omega⟩
    · simp only at hb
      split at hb
      · simp at hb
      · split at hb
        · -- include-first branch
          rcases hr1 : Barebones.bnb rest (sel ++ [index])
              (acc + effective_value inp mp.target_feerate)
              ((tries + (2 ^ 32 - 1)) % 2 ^ 32) rng (idx + 1) mp
            with ⟨o1, t1, i1⟩
          rw [hr1] at hb
          cases o1 with
          | some r =>
            simp only [Prod.mk.injEq, Option.some.injEq] at hb
            obtain ⟨hro, -⟩ := hb
            subst hro
            exact ih (sel ++ [index]) (acc + effective_value inp mp.target_feerate)
              ((tries + (2 ^ 32 - 1)) % 2 ^ 32) (idx + 1) r t1 i1 hacc2 hbound2
              hnodup_inc hrem2 hr1
          | none =>
            exact ih sel acc t1 i1 out t2 idx2 hacc hbound hnodup_exc hrem2 hb
        · -- exclude-first branch
          rcases hr1 : Barebones.bnb rest sel acc ((tries + (2 ^ 32 - 1)) % 2 ^ 32)
              rng (idx + 1) mp with ⟨o1, t1, i1⟩
          rw [hr1] at hb
          cases o1 with
          | some r =>
            simp only [Prod.mk.injEq, Option.some.injEq] at hb
            obtain ⟨hro, -⟩ := hb
            subst hro
            exact ih sel acc ((tries + (2 ^ 32 - 1)) % 2 ^ 32) (idx + 1) r t1 i1
              hacc hbound hnodup_exc hrem2 hr1
          | none =>
            rcases hr2 : Barebones.bnb rest (sel ++ [index])
                (acc + effective_value inp mp.target_feerate) t1 rng i1 mp
              with ⟨o2, tb2, i2⟩
            rw [hr2] at hb
            cases o2 with
            | some r =>
              simp only [Prod.mk.injEq, Option.some.injEq] at hb
              obtain ⟨hro, -⟩ := hb
              subst hro
              exact ih (sel ++ [index]) (acc + effective_value inp mp.target_feerate)
                t1 i1 r tb2 i2 hacc2 hbound2 hnodup_inc hrem2 hr2
            | none => simp at hb

/-! ### Concrete instances used by the counterexamples and witnesses -/

/-- An always-true coin-flip stream for the BnB search. -/
def rngTrue : Nat → Bool := fun _ => true

def exInputsC1 : List OutputGroup := [⟨100, 10, 1, false, none⟩]

def exOptsC1 : CoinSelectionOpt := ⟨1000, 0, none, 0, 0, 0, 0, 0, 0, 0, .toFee⟩

def exInputsC2 : List OutputGroup := [⟨500, 100, 1, false, none⟩]

def exOptsC2 : CoinSelectionOpt := ⟨100, 2, some 1, 0, 0, 0, 7, 0, 0, 0, .toDrain⟩

def exInputsC3 : List OutputGroup :=
  [⟨10, 1, 1, false, some 1⟩, ⟨20, 2, 1, false, none⟩]

def exInputsC4 : List OutputGroup := [⟨10, 100, 1, false, none⟩]

def exOptsC4 : CoinSelectionOpt := ⟨10, 1, none, 0, 0, 0, 0, 0, 0, 0, .toFee⟩

def exInputsC5 : List OutputGroup := [⟨600, 0, 1, false, none⟩]

def exOptsC5 : CoinSelectionOpt := ⟨100, 0, none, 0, 0, 0, 0, 0, 0, 0, .toFee⟩

def exInputsC7 : List OutputGroup := [⟨100, 1, 1, false, none⟩, ⟨1, 10, 1, false, none⟩]

def exOptsC7 : CoinSelectionOpt := ⟨0, 10, none, 0, 0, 0, 0, 0, 0, 0, .toFee⟩

def exInputsW : List OutputGroup := [⟨50, 0, 1, false, some 0⟩]

def exOptsW : CoinSelectionOpt := ⟨50, 0, none, 0, 0, 0, 0, 0, 0, 0, .toFee⟩

def exOptsC10 : CoinSelectionOpt := ⟨0, 1, some 2, 0, 0, 0, 7, 0, 0, 0, .toDrain⟩

/-! ### Claim C1 -/

/-- C1 (amended): the main2.rs and barebones.rs `select_coin_bnb` report
`NoSolutionFound` (and no other error) when the search exhausts its budget or
candidate depth, and the heuristic selectors report only `InsufficientFunds`; but
main.rs's `select_coin_bnb` falls back to `select_coin_srd` when the search finds no
match, so its only error is `InsufficientFunds` and it never reports
`NoSolutionFound`. -/
theorem C1_error_reporting :
    (∀ (inputs : List OutputGroup) (options : CoinSelectionOpt) (rng : Nat → Bool)
       (idx : Nat) (e : SelectionError),
       Main2.select_coin_bnb inputs options rng idx = .error e → e = .noSolutionFound)
    ∧ (∀ (inputs : List OutputGroup) (options : CoinSelectionOpt) (rng : Nat → Bool)
       (idx : Nat) (e : SelectionError),
       Barebones.select_coin_bnb inputs options rng idx = .error e → e = .noSolutionFound)
    ∧ (∀ (inputs : List OutputGroup) (options : CoinSelectionOpt)
       (randomized : List (Nat × OutputGroup)) (e : SelectionError),
       select_coin_srd inputs options randomized = .error e → e = .insufficientFunds)
    ∧ (∀ (inputs : List OutputGroup) (options : CoinSelectionOpt) (e : SelectionError),
       select_coin_fifo inputs options = .error e → e = .insufficientFunds)
    ∧ (∀ (inputs : List OutputGroup) (options : CoinSelectionOpt) (e : SelectionError),
       select_coin_lowestlarger inputs options = .error e → e = .insufficientFunds)
    ∧ (∀ (inputs : List OutputGroup) (options : CoinSelectionOpt) (rng : Nat → Bool)
       (idx : Nat) (randomized : List (Nat × OutputGroup)) (e : SelectionError),
       select_coin_bnb inputs options rng idx randomized = .error e →
       e = .insufficientFunds) := by
  have hsrd : ∀ (inputs : List OutputGroup) (options : CoinSelectionOpt)
      (randomized : List (Nat × OutputGroup)) (e : SelectionError),
      select_coin_srd inputs options randomized = .error e → e = .insufficientFunds := by
    intro inputs options randomized e h
    simp only [select_coin_srd] at h
    split at h
    · simp only [Except.error.injEq] at h
      exact h.symm
    · simp at h
  refine ⟨?_, ?_, hsrd, ?_, ?_, ?_⟩
  · intro inputs options rng idx e h
    simp only [Main2.select_coin_bnb] at h
    rcases hm : (Main2.bnb (bnb_sorted inputs) [] 0 1000000 options rng idx).1
      with _ | sc
    · rw [hm] at h
      simp only [Except.error.injEq] at h
      exact h.symm
    · rw [hm] at h
      simp at h
  · intro inputs options rng idx e h
    simp only [Barebones.select_coin_bnb] at h
    rcases hm : (Barebones.bnb (bnb_sorted inputs) [] 0 1000000 rng idx
        ⟨options.target_value + calculate_fee options.base_weight options.target_feerate +
           options.cost_per_output,
         options.cost_per_input + options.cost_per_output,
         options.target_feerate⟩).1 with _ | sc
    · rw [hm] at h
      simp only [Except.error.injEq] at h
      exact h.symm
    · rw [hm] at h
      simp at h
  · intro inputs options e h
    simp only [select_coin_fifo] at h
    split at h
    · simp only [Except.error.injEq] at h
      exact h.symm
    · simp at h
  · intro inputs options e h
    simp only [select_coin_lowestlarger] at h
    split at h
    · simp only [Except.error.injEq] at h
      exact h.symm
    · simp at h
  · intro inputs options rng idx randomized e h
    simp only [select_coin_bnb] at h
    rcases hm : (bnb (bnb_sorted inputs) [] 0 1000000 options rng idx).1 with _ | sc
    · rw [hm] at h
      exact hsrd inputs options randomized e h
    · rw [hm] at h
      simp at h

/-- C1 counterexample: on a candidate set whose Branch-and-Bound search exhausts
deterministically, main.rs's `select_coin_bnb` returns `InsufficientFunds` (the
result of the SRD fallback), not `NoSolutionFound` as the claim states. -/
theorem C1_counterexample :
    select_coin_bnb exInputsC1 exOptsC1 rngTrue 0 exInputsC1.enum =
      .error .insufficientFunds ∧
    select_coin_bnb exInputsC1 exOptsC1 rngTrue 0 exInputsC1.enum ≠
      .error .noSolutionFound := by
  with_unfolding_all decide

/-- C1 witness: main2.rs's `select_coin_bnb` really does fail with
`NoSolutionFound` on a concrete exhausted search. -/
theorem C1_witness : SelectionError.noSolutionFound = SelectionError.noSolutionFound :=
  C1_error_reporting.1 exInputsC1 exOptsC1 rngTrue 0 SelectionError.noSolutionFound
    (by with_unfolding_all decide)

/-! ### Claim C2 -/

/-- C2 (amended): main2.rs's `calculate_waste` computes the long-term cost term as
`ceil(accumulated_weight * (target_feerate - long_term_feerate))` clamped at zero,
so the total waste never drops below the excess/drain term; main.rs and barebones.rs
use a different formula (see the counterexample). -/
theorem C2_long_term_term (inputs : List OutputGroup) (selected_inputs : List Nat)
    (options : CoinSelectionOpt) (accV accW fee : Nat) (ltf : ℚ)
    (h : options.long_term_feerate = some ltf) :
    Main2.calculate_waste inputs selected_inputs options accV accW fee
      = spec_long_term_cost accW options.target_feerate ltf
        + (if options.excess_strategy ≠ ExcessStrategy.toDrain
           then accV - (options.target_value + fee) else options.drain_cost)
    ∧ (if options.excess_strategy ≠ ExcessStrategy.toDrain
       then accV - (options.target_value + fee) else options.drain_cost)
      ≤ Main2.calculate_waste inputs selected_inputs options accV accW fee := by
  simp only [Main2.calculate_waste, spec_long_term_cost, h]
  constructor
  · split <;> rfl
  · split <;> omega

/-- C2 counterexample: main.rs's `calculate_waste` at a concrete selection
(one selected input, accumulated weight 100, estimated fee 300, target feerate 2,
long-term feerate 1, `ToDrain` with drain cost 7) yields 207, while the claim's
formula gives a long-term term of `ceil(100 * (2 - 1)) = 100` and hence waste 107. -/
theorem C2_counterexample :
    calculate_waste exInputsC2 [0] exOptsC2 500 100 300 = 207 ∧
    spec_long_term_cost 100 exOptsC2.target_feerate 1 + exOptsC2.drain_cost = 107 ∧
    (207 : Nat) ≠ 107 := by
  with_unfolding_all decide

/-- C2 witness: the amended statement applied at a concrete selection. -/
theorem C2_witness :
    Main2.calculate_waste exInputsC2 [0] exOptsC2 500 100 300
      = spec_long_term_cost 100 exOptsC2.target_feerate 1
        + (if exOptsC2.excess_strategy ≠ ExcessStrategy.toDrain
           then 500 - (exOptsC2.target_value + 300) else exOptsC2.drain_cost)
    ∧ (if exOptsC2.excess_strategy ≠ ExcessStrategy.toDrain
       then 500 - (exOptsC2.target_value + 300) else exOptsC2.drain_cost)
      ≤ Main2.calculate_waste exInputsC2 [0] exOptsC2 500 100 300 :=
  C2_long_term_term exInputsC2 [0] exOptsC2 500 100 300 1 rfl

/-! ### Claim C3 -/

theorem fifoKey_eq_zero (g : OutputGroup) : fifoKey g = 0 ↔ g.creation_sequence = none := by
  cases h : g.creation_sequence <;> simp [fifoKey, h]

/-- C3 (amended): `select_coin_fifo` traverses candidates in ascending order of the
derived `Option` ordering on `creation_sequence`, in which `None` sorts BEFORE every
`Some` value: candidates lacking a sequence are traversed first, not last, and the
candidates with a sequence are in ascending sequence order. -/
theorem C3_fifo_order (inputs : List OutputGroup) :
    (fifo_sorted inputs).Pairwise (fun a b => fifoKey a.2 ≤ fifoKey b.2)
    ∧ (fifo_sorted inputs).Pairwise
        (fun a b => b.2.creation_sequence = none → a.2.creation_sequence = none) := by
  have hp := sortBy_pairwise (fun b a => decide (fifoKey b.2 ≤ fifoKey a.2))
    (fun a b c hab hbc =>
      decide_eq_true (Nat.le_trans (of_decide_eq_true hab) (of_decide_eq_true hbc)))
    (fun a b => by
      rcases Nat.le_total (fifoKey a.2) (fifoKey b.2) with h | h
      · exact Or.inl (decide_eq_true h)
      · exact Or.inr (decide_eq_true h))
    inputs.enum
  have h1 : (fifo_sorted inputs).Pairwise (fun a b => fifoKey a.2 ≤ fifoKey b.2) := by
    rw [fifo_sorted]
    exact hp.imp (fun h => of_decide_eq_true h)
  refine ⟨h1, h1.imp ?_⟩
  intro a b hab hb
  rw [← fifoKey_eq_zero] at hb ⊢
  omega

/-- C3 counterexample: with a `Some`-sequenced candidate at index 0 and a
sequence-less candidate at index 1, the FIFO traversal visits the `None` candidate
FIRST, refuting the claim that `None` candidates are traversed after all `Some`
candidates. -/
theorem C3_counterexample :
    ¬ (fifo_sorted exInputsC3).Pairwise
        (fun a b => ¬ (a.2.creation_sequence = none ∧ b.2.creation_sequence ≠ none)) := by
  intro h
  have hs : fifo_sorted exInputsC3 =
      [(1, ⟨20, 2, 1, false, none⟩), (0, ⟨10, 1, 1, false, some 1⟩)] := by
    with_unfolding_all decide
  rw [hs] at h
  have h2 := (List.pairwise_cons.mp h).1 (0, ⟨10, 1, 1, false, some 1⟩) (by simp)
  exact h2 ⟨rfl, by simp⟩

/-! ### Claim C4 -/

theorem ll_run_sums_fee (inputs : List OutputGroup) (options : CoinSelectionOpt) :
    (ll_run inputs options).accV = sumValues inputs (ll_run inputs options).sel ∧
    (ll_run inputs options).accW = sumWeights inputs (ll_run inputs options).sel ∧
    (ll_run inputs options).fee =
      calculate_fee (ll_run inputs options).accW options.target_feerate := by
  have hlookup := perm_enum_lookup (ll_sorted_perm inputs options)
  have h1 : ∀ p ∈ ((ll_sorted inputs options).take (ll_partition_index inputs options)).reverse,
      inputs[p.1]? = some p.2 :=
    fun p hp => hlookup p (List.mem_of_mem_take (List.mem_reverse.mp hp))
  have h2 : ∀ p ∈ (ll_sorted inputs options).drop (ll_partition_index inputs options),
      inputs[p.1]? = some p.2 :=
    fun p hp => hlookup p (List.mem_of_mem_drop hp)
  have hs1 := llLoop_sums options (options.target_value + options.min_drain_value)
    (((ll_sorted inputs options).take (ll_partition_index inputs options)).reverse)
    ⟨0, 0, [], 0⟩ h1 rfl rfl
  have hf1 := llLoop_fee options (options.target_value + options.min_drain_value)
    (((ll_sorted inputs options).take (ll_partition_index inputs options)).reverse)
    ⟨0, 0, [], 0⟩ (calculate_fee_zero options.target_feerate).symm
  simp only [ll_run]
  split
  · exact ⟨(llLoop_sums options _ _ _ h2 hs1.1 hs1.2).1,
      (llLoop_sums options _ _ _ h2 hs1.1 hs1.2).2,
      llLoop_fee options _ _ _ hf1⟩
  · exact ⟨hs1.1, hs1.2, hf1⟩

/-- C4 (amended): on every success of `select_coin_srd` and
`select_coin_lowestlarger`, and on every success of `select_coin_fifo` that stops
before consuming the whole candidate list, the sum of the selected values is at
least `target_value + max(fee(accumulated_weight), min_absolute_fee) +
min_drain_value` with the fee computed from the selected accumulated weight.  When
FIFO consumes the entire list its final check instead uses the fee computed before
the last candidate was folded in (see the counterexample). -/
theorem C4_threshold :
    (∀ (inputs : List OutputGroup) (options : CoinSelectionOpt)
       (randomized : List (Nat × OutputGroup)) (out : SelectionOutput),
       List.Perm randomized inputs.enum →
       select_coin_srd inputs options randomized = .ok out →
       options.target_value +
         max (calculate_fee (sumWeights inputs out.selected_inputs) options.target_feerate)
           options.min_absolute_fee + options.min_drain_value
         ≤ sumValues inputs out.selected_inputs)
    ∧ (∀ (inputs : List OutputGroup) (options : CoinSelectionOpt) (out : SelectionOutput),
       select_coin_lowestlarger inputs options = .ok out →
       options.target_value +
         max (calculate_fee (sumWeights inputs out.selected_inputs) options.target_feerate)
           options.min_absolute_fee + options.min_drain_value
         ≤ sumValues inputs out.selected_inputs)
    ∧ (∀ (inputs : List OutputGroup) (options : CoinSelectionOpt) (out : SelectionOutput),
       select_coin_fifo inputs options = .ok out →
       out.selected_inputs.length < inputs.length →
       options.target_value +
         max (calculate_fee (sumWeights inputs out.selected_inputs) options.target_feerate)
           options.min_absolute_fee + options.min_drain_value
         ≤ sumValues inputs out.selected_inputs) := by
  refine ⟨?_, ?_, ?_⟩
  · intro inputs options randomized out hperm hok
    simp only [select_coin_srd] at hok
    split at hok
    · simp at hok
    · rename_i hge
      simp only [Except.ok.injEq] at hok
      subst hok
      have hsums := srdLoop_sums options randomized ⟨0, 0, [], 0⟩
        (perm_enum_lookup hperm) rfl rfl
      have hfee := srdLoop_fee options randomized ⟨0, 0, [], 0⟩
        (calculate_fee_zero options.target_feerate).symm
      simp only [srd_run] at hge ⊢
      rw [← hsums.1, ← hsums.2, ← hfee]
      omega
  · intro inputs options out hok
    simp only [select_coin_lowestlarger] at hok
    split at hok
    · simp at hok
    · rename_i hge
      simp only [Except.ok.injEq] at hok
      subst hok
      have hfacts := ll_run_sums_fee inputs options
      rw [← hfacts.1, ← hfacts.2.1, ← hfacts.2.2]
      omega
  · intro inputs options out hok hlen
    simp only [select_coin_fifo] at hok
    split at hok
    · simp at hok
    · rename_i hge
      simp only [Except.ok.injEq] at hok
      subst hok
      dsimp only at hlen
      rcases fifoLoop_exhaust_or_fee options (fifo_sorted inputs) ⟨0, 0, [], 0⟩
        with hex | hfee
      · exfalso
        have hlen2 : (fifo_run inputs options).sel.length = inputs.length := by
          rw [fifo_run, hex]
          simp [(fifo_sorted_perm inputs).length_eq]
        omega
      · have hsums := fifoLoop_sums options (fifo_sorted inputs) ⟨0, 0, [], 0⟩
          (perm_enum_lookup (fifo_sorted_perm inputs)) rfl rfl
        simp only [fifo_run] at hge ⊢
        rw [← hsums.1, ← hsums.2, ← hfee]
        omega

/-- C4 counterexample: `select_coin_fifo` with one candidate (value 10, weight 100)
at feerate 1 and target 10 succeeds after consuming the whole list, but the sum of
selected values (10) is far below `target_value + max(fee(accumulated_weight),
min_absolute_fee) + min_drain_value = 10 + 100 + 0`: the final check used the fee
computed before the candidate's weight was added. -/
theorem C4_counterexample :
    select_coin_fifo exInputsC4 exOptsC4 = .ok ⟨[0], 0⟩ ∧
    sumValues exInputsC4 [0] < exOptsC4.target_value +
      max (calculate_fee (sumWeights exInputsC4 [0]) exOptsC4.target_feerate)
        exOptsC4.min_absolute_fee + exOptsC4.min_drain_value := by
  with_unfolding_all decide

/-- C4 witness: the SRD conjunct applied on a concrete success. -/
theorem C4_witness :
    exOptsW.target_value +
      max (calculate_fee (sumWeights exInputsW [0]) exOptsW.target_feerate)
        exOptsW.min_absolute_fee + exOptsW.min_drain_value
      ≤ sumValues exInputsW [0] := by
  have h := C4_threshold.1 exInputsW exOptsW exInputsW.enum ⟨[0], 0⟩
    (List.Perm.refl _) (by with_unfolding_all decide)
  simpa using h

/-! ### Claim C5 -/

/-- C5 (amended): whenever the Branch-and-Bound SEARCH itself succeeds — the
top-level `bnb` call of main.rs (for any tries budget, so in particular the
1000000 used by `select_coin_bnb`), and barebones.rs's `select_coin_bnb` — the sum
of effective values of the selected candidates lies in
`[target_for_match, target_for_match + match_range]`.  main.rs's `select_coin_bnb`
only guarantees this when the inner search succeeds: its SRD fallback can succeed
outside the window (see the counterexample). -/
theorem C5_window :
    (∀ (inputs : List OutputGroup) (options : CoinSelectionOpt) (rng : Nat → Bool)
       (tries idx : Nat) (out : List Nat) (idx2 : Nat),
       bnb (bnb_sorted inputs) [] 0 tries options rng idx = (some out, idx2) →
       target_for_match options ≤ effSum inputs options.target_feerate out ∧
       effSum inputs options.target_feerate out ≤
         target_for_match options + match_range options)
    ∧ (∀ (inputs : List OutputGroup) (options : CoinSelectionOpt) (rng : Nat → Bool)
       (idx : Nat) (out : SelectionOutput),
       Barebones.select_coin_bnb inputs options rng idx = .ok out →
       target_for_match options ≤ effSum inputs options.target_feerate out.selected_inputs ∧
       effSum inputs options.target_feerate out.selected_inputs ≤
         target_for_match options + match_range options) := by
  constructor
  · intro inputs options rng tries idx out idx2 hb
    have h := bnb_some_spec inputs options rng (bnb_sorted inputs) [] 0 tries idx out idx2
      rfl (by simp) (by simpa using perm_enum_fst_nodup (bnb_sorted_perm inputs))
      (perm_enum_lookup (bnb_sorted_perm inputs)) hb
    exact ⟨h.2.2.1, h.2.2.2⟩
  · intro inputs options rng idx out hok
    simp only [Barebones.select_coin_bnb] at hok
    rcases hm : Barebones.bnb (bnb_sorted inputs) [] 0 1000000 rng idx
        ⟨options.target_value + calculate_fee options.base_weight options.target_feerate +
           options.cost_per_output,
         options.cost_per_input + options.cost_per_output,
         options.target_feerate⟩ with ⟨o, t2, i2⟩
    rw [hm] at hok
    cases o with
    | none => simp at hok
    | some sc =>
      simp only [Except.ok.injEq] at hok
      subst hok
      have h := bnbBB_some_spec inputs
        ⟨options.target_value + calculate_fee options.base_weight options.target_feerate +
           options.cost_per_output,
         options.cost_per_input + options.cost_per_output,
         options.target_feerate⟩ rng (bnb_sorted inputs) [] 0 1000000 idx sc t2 i2
        rfl (by simp) (by simpa using perm_enum_fst_nodup (bnb_sorted_perm inputs))
        (perm_enum_lookup (bnb_sorted_perm inputs)) hm
      exact ⟨h.2.2.1, h.2.2.2⟩

/-- C5 counterexample: main.rs's `select_coin_bnb` on a single candidate of
effective value 600 with window `[100, 100]` succeeds (through the SRD fallback)
with a selection whose effective-value sum 600 lies strictly above the window. -/
theorem C5_counterexample :
    select_coin_bnb exInputsC5 exOptsC5 rngTrue 0 exInputsC5.enum = .ok ⟨[0], 500⟩ ∧
    target_for_match exOptsC5 + match_range exOptsC5 <
      effSum exInputsC5 exOptsC5.target_feerate [0] := by
  with_unfolding_all decide

/-- C5 witness: the window property applied at a concrete successful search. -/
theorem C5_witness :
    target_for_match exOptsW ≤ effSum exInputsW exOptsW.target_feerate [0] ∧
    effSum exInputsW exOptsW.target_feerate [0] ≤
      target_for_match exOptsW + match_range exOptsW :=
  C5_window.1 exInputsW exOptsW rngTrue 3 0 [0] 1 (by with_unfolding_all decide)

/-! ### Claim C6 -/

/-- C6: at every success-path call site of `calculate_waste`, the accumulated value
is at least `target_value + estimated_fee` with the fee argument the selector
actually passes, so the excess subtraction
`accumulated_value - target_value - estimated_fee` cannot underflow (and the waste,
a `Nat`, is trivially non-negative).  For the heuristics the fee argument is the
loop's final `estimated_fee`; for the BnB success path of main.rs it is the literal
`0`. -/
theorem C6_no_underflow :
    (∀ (inputs : List OutputGroup) (options : CoinSelectionOpt) (out : SelectionOutput),
       select_coin_fifo inputs options = .ok out →
       options.target_value + (fifo_run inputs options).fee ≤ (fifo_run inputs options).accV)
    ∧ (∀ (inputs : List OutputGroup) (options : CoinSelectionOpt)
       (randomized : List (Nat × OutputGroup)) (out : SelectionOutput),
       select_coin_srd inputs options randomized = .ok out →
       options.target_value + (srd_run options randomized).fee ≤
         (srd_run options randomized).accV)
    ∧ (∀ (inputs : List OutputGroup) (options : CoinSelectionOpt) (out : SelectionOutput),
       select_coin_lowestlarger inputs options = .ok out →
       options.target_value + (ll_run inputs options).fee ≤ (ll_run inputs options).accV)
    ∧ (∀ (inputs : List OutputGroup) (options : CoinSelectionOpt) (rng : Nat → Bool)
       (tries idx : Nat) (out : List Nat) (idx2 : Nat),
       bnb (bnb_sorted inputs) [] 0 tries options rng idx = (some out, idx2) →
       options.target_value + 0 ≤ sumValues inputs out) := by
  refine ⟨?_, ?_, ?_, ?_⟩
  · intro inputs options out hok
    simp only [select_coin_fifo] at hok
    split at hok
    · simp at hok
    · rename_i hge
      have hmax := Nat.le_max_left (fifo_run inputs options).fee options.min_absolute_fee
      omega
  · intro inputs options randomized out hok
    simp only [select_coin_srd] at hok
    split at hok
    · simp at hok
    · rename_i hge
      have hmax := Nat.le_max_left (srd_run options randomized).fee options.min_absolute_fee
      omega
  · intro inputs options out hok
    simp only [select_coin_lowestlarger] at hok
    split at hok
    · simp at hok
    · rename_i hge
      have hmax := Nat.le_max_left (ll_run inputs options).fee options.min_absolute_fee
      omega
  · intro inputs options rng tries idx out idx2 hb
    have h := bnb_some_spec inputs options rng (bnb_sorted inputs) [] 0 tries idx out idx2
      rfl (by simp) (by simpa using perm_enum_fst_nodup (bnb_sorted_perm inputs))
      (perm_enum_lookup (bnb_sorted_perm inputs)) hb
    have h2 := effSum_le_sumValues inputs options.target_feerate out
    have h3 := h.2.2.1
    simp only [target_for_match] at h3
    omega

/-- C6 witness: all four call-site bounds at a concrete scenario on which every
selector succeeds. -/
theorem C6_witness :
    (exOptsW.target_value + (fifo_run exInputsW exOptsW).fee ≤
      (fifo_run exInputsW exOptsW).accV)
    ∧ (exOptsW.target_value + (srd_run exOptsW exInputsW.enum).fee ≤
      (srd_run exOptsW exInputsW.enum).accV)
    ∧ (exOptsW.target_value + (ll_run exInputsW exOptsW).fee ≤
      (ll_run exInputsW exOptsW).accV)
    ∧ (exOptsW.target_value + 0 ≤ sumValues exInputsW [0]) :=
  ⟨C6_no_underflow.1 exInputsW exOptsW ⟨[0], 0⟩ (by with_unfolding_all decide),
   C6_no_underflow.2.1 exInputsW exOptsW exInputsW.enum ⟨[0], 0⟩
     (by with_unfolding_all decide),
   C6_no_underflow.2.2.1 exInputsW exOptsW ⟨[0], 0⟩ (by with_unfolding_all decide),
   C6_no_underflow.2.2.2 exInputsW exOptsW rngTrue 3 0 [0] 1
     (by with_unfolding_all decide)⟩

/-! ### Claim C7 -/

/-- C7 (amended): `select_coin_fifo` and `select_coin_srd` (under the same shuffle)
are monotone in the target: a failure with `InsufficientFunds` at target `T` is
still a failure at every larger target.  `select_coin_lowestlarger` is NOT monotone
(see the counterexample): raising the target can move a candidate across the
`partition_point` boundary and let phase 1 reach the threshold. -/
theorem C7_monotone :
    (∀ (inputs : List OutputGroup) (options : CoinSelectionOpt) (T2 : Nat),
       select_coin_fifo inputs options = .error .insufficientFunds →
       options.target_value < T2 →
       select_coin_fifo inputs (setTarget options T2) = .error .insufficientFunds)
    ∧ (∀ (inputs : List OutputGroup) (options : CoinSelectionOpt)
       (randomized : List (Nat × OutputGroup)) (T2 : Nat),
       select_coin_srd inputs options randomized = .error .insufficientFunds →
       options.target_value < T2 →
       select_coin_srd inputs (setTarget options T2) randomized =
         .error .insufficientFunds) := by
  constructor
  · intro inputs options T2 h hT
    simp only [select_coin_fifo] at h ⊢
    split at h
    · rename_i hfail
      have h2 := fifoLoop_mono options T2 (Nat.le_of_lt hT) (fifo_sorted inputs)
        ⟨0, 0, [], 0⟩ hfail
      rw [if_pos]
      simpa [setTarget, fifo_run] using h2
    · simp at h
  · intro inputs options randomized T2 h hT
    simp only [select_coin_srd] at h ⊢
    split at h
    · rename_i hfail
      have h2 := srdLoop_mono options T2 (Nat.le_of_lt hT) randomized
        ⟨0, 0, [], 0⟩ hfail
      rw [if_pos]
      simpa [setTarget, srd_run] using h2
    · simp at h

/-- C7 counterexample: `select_coin_lowestlarger` on candidates (value 100, weight
1) and (value 1, weight 10) at feerate 10 fails with `InsufficientFunds` for target
0, yet succeeds for the larger target 90: at target 0 the 100-value candidate is
above the partition boundary and is reached only after the fee-laden small
candidate; at target 90 it moves below the boundary and phase 1 covers the
threshold at once. -/
theorem C7_counterexample :
    select_coin_lowestlarger exInputsC7 exOptsC7 = .error .insufficientFunds ∧
    exOptsC7.target_value < 90 ∧
    select_coin_lowestlarger exInputsC7 (setTarget exOptsC7 90) = .ok ⟨[0], 0⟩ := by
  with_unfolding_all decide

/-- C7 witness: FIFO monotonicity applied at a concrete failing target. -/
theorem C7_witness :
    select_coin_fifo exInputsC1 (setTarget exOptsC1 1500) = .error .insufficientFunds :=
  C7_monotone.1 exInputsC1 exOptsC1 1500 (by with_unfolding_all decide) (by decide)

/-! ### Claim C8 -/

theorem sel_from_sorted {inputs : List OutputGroup} {L : List (Nat × OutputGroup)}
    (hperm : List.Perm L inputs.enum) {sel : List Nat}
    (hsub : sel.Sublist (L.map Prod.fst)) :
    sel.Nodup ∧ ∀ i ∈ sel, i < inputs.length := by
  constructor
  · exact List.Nodup.sublist hsub (perm_enum_fst_nodup hperm)
  · intro i hi
    rcases List.mem_map.mp (hsub.subset hi) with ⟨p, hp, rfl⟩
    exact lookup_lt (perm_enum_lookup hperm p hp)

/-- C8: every success of `select_coin_fifo`, `select_coin_srd`,
`select_coin_lowestlarger` and main.rs's `select_coin_bnb` returns a list of
pairwise-distinct indices, each a valid position of the original (unsorted,
unshuffled) candidate list — in particular the BnB search pushes the original
index stored in the sorted working copy, not the sorted position. -/
theorem C8_index_validity :
    (∀ (inputs : List OutputGroup) (options : CoinSelectionOpt) (out : SelectionOutput),
       select_coin_fifo inputs options = .ok out →
       out.selected_inputs.Nodup ∧ ∀ i ∈ out.selected_inputs, i < inputs.length)
    ∧ (∀ (inputs : List OutputGroup) (options : CoinSelectionOpt)
       (randomized : List (Nat × OutputGroup)) (out : SelectionOutput),
       List.Perm randomized inputs.enum →
       select_coin_srd inputs options randomized = .ok out →
       out.selected_inputs.Nodup ∧ ∀ i ∈ out.selected_inputs, i < inputs.length)
    ∧ (∀ (inputs : List OutputGroup) (options : CoinSelectionOpt) (out : SelectionOutput),
       select_coin_lowestlarger inputs options = .ok out →
       out.selected_inputs.Nodup ∧ ∀ i ∈ out.selected_inputs, i < inputs.length)
    ∧ (∀ (inputs : List OutputGroup) (options : CoinSelectionOpt) (rng : Nat → Bool)
       (idx : Nat) (randomized : List (Nat × OutputGroup)) (out : SelectionOutput),
       List.Perm randomized inputs.enum →
       select_coin_bnb inputs options rng idx randomized = .ok out →
       out.selected_inputs.Nodup ∧ ∀ i ∈ out.selected_inputs, i < inputs.length) := by
  have hsrd : ∀ (inputs : List OutputGroup) (options : CoinSelectionOpt)
      (randomized : List (Nat × OutputGroup)) (out : SelectionOutput),
      List.Perm randomized inputs.enum →
      select_coin_srd inputs options randomized = .ok out →
      out.selected_inputs.Nodup ∧ ∀ i ∈ out.selected_inputs, i < inputs.length := by
    intro inputs options randomized out hperm hok
    simp only [select_coin_srd] at hok
    split at hok
    · simp at hok
    · simp only [Except.ok.injEq] at hok
      subst hok
      obtain ⟨k, hk⟩ := srdLoop_sel_extend options randomized ⟨0, 0, [], 0⟩
      simp only [srd_run]
      rw [hk]
      simp only [List.nil_append]
      exact sel_from_sorted hperm ((List.take_sublist k randomized).map Prod.fst)
  refine ⟨?_, hsrd, ?_, ?_⟩
  · intro inputs options out hok
    simp only [select_coin_fifo] at hok
    split at hok
    · simp at hok
    · simp only [Except.ok.injEq] at hok
      subst hok
      obtain ⟨k, hk⟩ := fifoLoop_sel_extend options (fifo_sorted inputs) ⟨0, 0, [], 0⟩
      simp only [fifo_run]
      rw [hk]
      simp only [List.nil_append]
      exact sel_from_sorted (fifo_sorted_perm inputs)
        ((List.take_sublist k (fifo_sorted inputs)).map Prod.fst)
  · intro inputs options out hok
    simp only [select_coin_lowestlarger] at hok
    split at hok
    · simp at hok
    · simp only [Except.ok.injEq] at hok
      subst hok
      have hperm2 : List.Perm
          (((ll_sorted inputs options).take (ll_partition_index inputs options)).reverse ++
            (ll_sorted inputs options).drop (ll_partition_index inputs options))
          inputs.enum := by
        refine List.Perm.trans ?_ (ll_sorted_perm inputs options)
        have h1 := (List.reverse_perm
          ((ll_sorted inputs options).take (ll_partition_index inputs options))).append_right
          ((ll_sorted inputs options).drop (ll_partition_index inputs options))
        rw [List.take_append_drop] at h1
        exact h1
      obtain ⟨k1, hk1⟩ := llLoop_sel_extend options
        (options.target_value + options.min_drain_value)
        (((ll_sorted inputs options).take (ll_partition_index inputs options)).reverse)
        ⟨0, 0, [], 0⟩
      simp only [ll_run]
      split
      · obtain ⟨k2, hk2⟩ := llLoop_sel_extend options
          (options.target_value + options.min_drain_value)
          ((ll_sorted inputs options).drop (ll_partition_index inputs options))
          (llLoop options (options.target_value + options.min_drain_value)
            (((ll_sorted inputs options).take (ll_partition_index inputs options)).reverse)
            ⟨0, 0, [], 0⟩)
        rw [hk2, hk1]
        simp only [List.nil_append, ← List.map_append]
        refine sel_from_sorted hperm2 (List.Sublist.map Prod.fst ?_)
        exact List.Sublist.append (List.take_sublist _ _) (List.take_sublist _ _)
      · rw [hk1]
        simp only [List.nil_append]
        refine sel_from_sorted hperm2 ?_
        rw [List.map_append]
        refine List.Sublist.trans ((List.take_sublist k1 _).map Prod.fst) ?_
        exact List.sublist_append_left _ _
  · intro inputs options rng idx randomized out hperm hok
    simp only [select_coin_bnb] at hok
    rcases hm : (bnb (bnb_sorted inputs) [] 0 1000000 options rng idx).1 with _ | sc
    · rw [hm] at hok
      exact hsrd inputs options randomized out hperm hok
    · rw [hm] at hok
      simp only [Except.ok.injEq] at hok
      subst hok
      have hpair : bnb (bnb_sorted inputs) [] 0 1000000 options rng idx =
          (some sc, (bnb (bnb_sorted inputs) [] 0 1000000 options rng idx).2) := by
        rw [← hm]
      have h := bnb_some_spec inputs options rng (bnb_sorted inputs) [] 0 1000000 idx sc
        (bnb (bnb_sorted inputs) [] 0 1000000 options rng idx).2
        rfl (by simp) (by simpa using perm_enum_fst_nodup (bnb_sorted_perm inputs))
        (perm_enum_lookup (bnb_sorted_perm inputs)) hpair
      exact ⟨h.1, h.2.1⟩

/-- C8 witness: index validity of all four selectors on a concrete scenario. -/
theorem C8_witness :
    (([0] : List Nat).Nodup ∧ ∀ i ∈ ([0] : List Nat), i < exInputsW.length) ∧
    (([0] : List Nat).Nodup ∧ ∀ i ∈ ([0] : List Nat), i < exInputsW.length) ∧
    (([0] : List Nat).Nodup ∧ ∀ i ∈ ([0] : List Nat), i < exInputsW.length) ∧
    (([0] : List Nat).Nodup ∧ ∀ i ∈ ([0] : List Nat), i < exInputsW.length) := by
  refine ⟨?_, ?_, ?_, ?_⟩
  · have h := C8_index_validity.1 exInputsW exOptsW ⟨[0], 0⟩ (by with_unfolding_all decide)
    simpa using h
  · have h := C8_index_validity.2.1 exInputsW exOptsW exInputsW.enum ⟨[0], 0⟩
      (List.Perm.refl _) (by with_unfolding_all decide)
    simpa using h
  · have h := C8_index_validity.2.2.1 exInputsW exOptsW ⟨[0], 0⟩
      (by with_unfolding_all decide)
    simpa using h
  · have h := C8_index_validity.2.2.2 exInputsW exOptsW rngTrue 0 exInputsW.enum ⟨[0], 0⟩
      (List.Perm.refl _) (by with_unfolding_all decide)
    simpa using h

/-! ### Claim C10 -/

/-- C10: with `target_value = 0`, `min_drain_value = 0` and `min_absolute_fee = 0`,
`select_coin_fifo` succeeds on every candidate list with an empty selection (never
returning `InsufficientFunds`), and under the `ToDrain` excess strategy the
returned waste is exactly `drain_cost`. -/
theorem C10_zero_target (inputs : List OutputGroup) (options : CoinSelectionOpt)
    (h1 : options.target_value = 0) (h2 : options.min_drain_value = 0)
    (h3 : options.min_absolute_fee = 0) :
    select_coin_fifo inputs options =
      .ok ⟨[], calculate_waste inputs [] options 0 0 0⟩ ∧
    (options.excess_strategy = ExcessStrategy.toDrain →
      calculate_waste inputs [] options 0 0 0 = options.drain_cost) := by
  constructor
  · have hrun : fifo_run inputs options = ⟨0, 0, [], 0⟩ := by
      rw [fifo_run]
      cases hfs : fifo_sorted inputs with
      | nil => rfl
      | cons p rest =>
        obtain ⟨index, inp⟩ := p
        simp only [fifoLoop]
        rw [if_pos]
        · simp [calculate_fee_zero]
        · simp [h1, h2, h3, calculate_fee_zero]
    simp only [select_coin_fifo, hrun, h1, h2, h3]
    simp [calculate_fee_zero]
  · intro hd
    rcases hl : options.long_term_feerate with _ | l <;>
      simp [calculate_waste, hl, hd, h1]

/-- C10 witness: the zero-target behavior at a concrete candidate list and
`ToDrain` options with a long-term feerate supplied. -/
theorem C10_witness :
    select_coin_fifo exInputsC3 exOptsC10 =
      .ok ⟨[], calculate_waste exInputsC3 [] exOptsC10 0 0 0⟩ ∧
    calculate_waste exInputsC3 [] exOptsC10 0 0 0 = exOptsC10.drain_cost := by
  have h := C10_zero_target exInputsC3 exOptsC10 rfl rfl rfl
  exact ⟨h.1, h.2 rfl⟩
